import Mathlib

/-!
Verification of the discrete Fourier transform routines in dft.py.

Samples are pairs (real, imag) of real numbers, as in the Python code, which
represents complex values as tuples `(real, imag)` and never uses the complex
number type.  The Python floats are modelled by real numbers; the floating
point tolerances of the specification become exact statements in this model.
-/

namespace DFT

/-- One frequency bin of the forward transform: the inner loop of `dft` in
dft.py accumulating `real += x[n][0] * cos(angle)` and
`imag -= x[n][0] * sin(angle)` with `angle = 2*pi*k*n/N`, starting from
`real = 0.0`, `imag = 0.0`.  Note the code reads only `x[n][0]`, the real
part of the sample. -/
noncomputable def dftBin (x : List (ℝ × ℝ)) (k : ℕ) : ℝ × ℝ :=
  (List.range x.length).foldl
    (fun acc n =>
      (acc.1 + (x.getD n (0, 0)).1 *
          Real.cos (2 * Real.pi * (k : ℝ) * (n : ℝ) / (x.length : ℝ)),
       acc.2 - (x.getD n (0, 0)).1 *
          Real.sin (2 * Real.pi * (k : ℝ) * (n : ℝ) / (x.length : ℝ))))
    (0, 0)

/-- The forward transform `dft` of dft.py: the outer loop fills `X[k]` for
each `k in range(N)` with the accumulated bin. -/
noncomputable def dft (x : List (ℝ × ℝ)) : List (ℝ × ℝ) :=
  (List.range x.length).map (dftBin x)

/-- One output sample of the inverse transform: the inner loop of `idft` in
dft.py accumulating `real += X[k][0]*cos(angle) - X[k][1]*sin(angle)`.  The
line accumulating the imaginary part is commented out in the source, so
`imag` stays `0.0`; the function returns `(real / N, imag / N)`. -/
noncomputable def idftBin (X : List (ℝ × ℝ)) (n : ℕ) : ℝ × ℝ :=
  ((List.range X.length).foldl
      (fun acc k =>
        acc + (X.getD k (0, 0)).1 *
            Real.cos (2 * Real.pi * (k : ℝ) * (n : ℝ) / (X.length : ℝ))
          - (X.getD k (0, 0)).2 *
            Real.sin (2 * Real.pi * (k : ℝ) * (n : ℝ) / (X.length : ℝ)))
      0 / (X.length : ℝ),
   (0 : ℝ) / (X.length : ℝ))

/-- The inverse transform `idft` of dft.py: the outer loop fills `x[n]` for
each `n in range(N)`. -/
noncomputable def idft (X : List (ℝ × ℝ)) : List (ℝ × ℝ) :=
  (List.range X.length).map (idftBin X)

/-- Modelled from the spec: the exponential-form forward transform `dft_exp`
is called by speedtest.py (and named in test.py) but its definition is not
under src/.  Per the spec it accumulates `x[n] * e^(-i*angle)` as a single
complex multiply-add; with `x[n] = a + b*i` this adds
`a*cos(angle) + b*sin(angle)` to the real accumulator and
`b*cos(angle) - a*sin(angle)` to the imaginary accumulator. -/
noncomputable def dft_exp (x : List (ℝ × ℝ)) : List (ℝ × ℝ) :=
  (List.range x.length).map (fun (k : ℕ) =>
    (List.range x.length).foldl
      (fun acc n =>
        (acc.1 + ((x.getD n (0, 0)).1 *
              Real.cos (2 * Real.pi * (k : ℝ) * (n : ℝ) / (x.length : ℝ)) +
            (x.getD n (0, 0)).2 *
              Real.sin (2 * Real.pi * (k : ℝ) * (n : ℝ) / (x.length : ℝ))),
         acc.2 + ((x.getD n (0, 0)).2 *
              Real.cos (2 * Real.pi * (k : ℝ) * (n : ℝ) / (x.length : ℝ)) -
            (x.getD n (0, 0)).1 *
              Real.sin (2 * Real.pi * (k : ℝ) * (n : ℝ) / (x.length : ℝ)))))
      (0, 0))

/-- Modelled from the spec: the exponential-form inverse transform `idft_exp`
(named in test.py, not under src/) accumulates `X[k] * e^(i*angle)` as a
complex multiply-add and divides both components by N; with `X[k] = a + b*i`
this adds `a*cos(angle) - b*sin(angle)` to the real accumulator and
`a*sin(angle) + b*cos(angle)` to the imaginary accumulator. -/
noncomputable def idft_exp (X : List (ℝ × ℝ)) : List (ℝ × ℝ) :=
  (List.range X.length).map (fun (n : ℕ) =>
    let acc := (List.range X.length).foldl
      (fun acc k =>
        (acc.1 + ((X.getD k (0, 0)).1 *
              Real.cos (2 * Real.pi * (k : ℝ) * (n : ℝ) / (X.length : ℝ)) -
            (X.getD k (0, 0)).2 *
              Real.sin (2 * Real.pi * (k : ℝ) * (n : ℝ) / (X.length : ℝ))),
         acc.2 + ((X.getD k (0, 0)).1 *
              Real.sin (2 * Real.pi * (k : ℝ) * (n : ℝ) / (X.length : ℝ)) +
            (X.getD k (0, 0)).2 *
              Real.cos (2 * Real.pi * (k : ℝ) * (n : ℝ) / (X.length : ℝ)))))
      (0, 0)
    (acc.1 / (X.length : ℝ), acc.2 / (X.length : ℝ)))

/-! ### Loop accumulators as finite sums -/

theorem foldl_range_pair_addsub (F G : ℕ → ℝ) :
    ∀ (N : ℕ) (a b : ℝ),
      (List.range N).foldl (fun acc n => (acc.1 + F n, acc.2 - G n)) (a, b)
        = (a + ∑ n in Finset.range N, F n, b - ∑ n in Finset.range N, G n) := by
  intro N
  induction N with
  | zero => intro a b; simp
  | succ m ih =>
    intro a b
    rw [List.range_succ, List.foldl_append, ih]
    simp only [List.foldl_cons, List.foldl_nil, Finset.sum_range_succ]
    exact Prod.ext (by ring) (by ring)

theorem foldl_range_pair_addadd (F G : ℕ → ℝ) :
    ∀ (N : ℕ) (a b : ℝ),
      (List.range N).foldl (fun acc n => (acc.1 + F n, acc.2 + G n)) (a, b)
        = (a + ∑ n in Finset.range N, F n, b + ∑ n in Finset.range N, G n) := by
  intro N
  induction N with
  | zero => intro a b; simp
  | succ m ih =>
    intro a b
    rw [List.range_succ, List.foldl_append, ih]
    simp only [List.foldl_cons, List.foldl_nil, Finset.sum_range_succ]
    exact Prod.ext (by ring) (by ring)

theorem foldl_range_addsub (F G : ℕ → ℝ) :
    ∀ (N : ℕ) (a : ℝ),
      (List.range N).foldl (fun acc k => acc + F k - G k) a
        = a + ∑ k in Finset.range N, (F k - G k) := by
  intro N
  induction N with
  | zero => intro a; simp
  | succ m ih =>
    intro a
    rw [List.range_succ, List.foldl_append, ih]
    simp only [List.foldl_cons, List.foldl_nil, Finset.sum_range_succ]
    ring

theorem dftBin_eq_sum (x : List (ℝ × ℝ)) (k : ℕ) :
    dftBin x k =
      (∑ n in Finset.range x.length, (x.getD n (0, 0)).1 *
          Real.cos (2 * Real.pi * (k : ℝ) * (n : ℝ) / (x.length : ℝ)),
       -∑ n in Finset.range x.length, (x.getD n (0, 0)).1 *
          Real.sin (2 * Real.pi * (k : ℝ) * (n : ℝ) / (x.length : ℝ))) := by
  unfold dftBin
  rw [foldl_range_pair_addsub]
  simp

theorem idftBin_eq_sum (X : List (ℝ × ℝ)) (n : ℕ) :
    idftBin X n =
      ((∑ k in Finset.range X.length,
          ((X.getD k (0, 0)).1 *
              Real.cos (2 * Real.pi * (k : ℝ) * (n : ℝ) / (X.length : ℝ)) -
            (X.getD k (0, 0)).2 *
              Real.sin (2 * Real.pi * (k : ℝ) * (n : ℝ) / (X.length : ℝ))))
        / (X.length : ℝ), 0) := by
  unfold idftBin
  rw [foldl_range_addsub]
  simp

theorem dft_length (x : List (ℝ × ℝ)) : (dft x).length = x.length := by
  simp [dft]

theorem idft_length (X : List (ℝ × ℝ)) : (idft X).length = X.length := by
  simp [idft]

theorem dft_getD (x : List (ℝ × ℝ)) (k : ℕ) (hk : k < x.length) :
    (dft x).getD k (0, 0) = dftBin x k := by
  rw [dft, List.getD_eq_getElem _ _ (by simpa using hk)]
  simp

theorem idft_getD (X : List (ℝ × ℝ)) (n : ℕ) (hn : n < X.length) :
    (idft X).getD n (0, 0) = idftBin X n := by
  rw [idft, List.getD_eq_getElem _ _ (by simpa using hn)]
  simp

/-! ### Orthogonality sums -/

theorem sum_exp_eq_zero (N : ℕ) (hN : 0 < N) (d : ℤ) (hnd : ¬ (N : ℤ) ∣ d) :
    ∑ k in Finset.range N,
        Complex.exp (((2 * Real.pi * (k : ℝ) * (d : ℝ) / (N : ℝ) : ℝ) : ℂ) *
          Complex.I) = 0 := by
  have hNR : (N : ℝ) ≠ 0 := Nat.cast_ne_zero.mpr hN.ne'
  set c : ℝ := 2 * Real.pi * (d : ℝ) / (N : ℝ) with hc
  have hterm : ∀ k : ℕ,
      Complex.exp (((2 * Real.pi * (k : ℝ) * (d : ℝ) / (N : ℝ) : ℝ) : ℂ) *
          Complex.I)
        = Complex.exp ((c : ℂ) * Complex.I) ^ k := by
    intro k
    rw [← Complex.exp_nat_mul]
    congr 1
    rw [hc]
    push_cast
    ring
  rw [Finset.sum_congr rfl fun k _ => hterm k]
  have h2pi : (2 * Real.pi) ≠ 0 := by positivity
  have hne : Complex.exp ((c : ℂ) * Complex.I) ≠ 1 := by
    intro hm1
    rw [Complex.exp_eq_one_iff] at hm1
    obtain ⟨m, hm⟩ := hm1
    apply hnd
    have h1 : (c : ℂ) * Complex.I = ((m * (2 * Real.pi) : ℝ) : ℂ) * Complex.I := by
      rw [hm]; push_cast; ring
    have h2 : c = m * (2 * Real.pi) :=
      Complex.ofReal_inj.mp (mul_right_cancel₀ Complex.I_ne_zero h1)
    rw [hc] at h2
    have h3 : 2 * Real.pi * (d : ℝ) = (m : ℝ) * (2 * Real.pi) * N := by
      have h4 := congrArg (fun t : ℝ => t * (N : ℝ)) h2
      simpa [div_mul_cancel₀, hNR] using h4
    have h5 : (d : ℝ) = (N : ℝ) * m :=
      mul_left_cancel₀ h2pi (by linear_combination h3)
    exact ⟨m, by exact_mod_cast h5⟩
  rw [geom_sum_eq hne]
  have hNC : (N : ℂ) ≠ 0 := Nat.cast_ne_zero.mpr hN.ne'
  have hpow : Complex.exp ((c : ℂ) * Complex.I) ^ N = 1 := by
    rw [← Complex.exp_nat_mul]
    have h4 : (N : ℂ) * ((c : ℂ) * Complex.I)
        = (d : ℂ) * (2 * (Real.pi : ℂ) * Complex.I) := by
      rw [hc]
      push_cast
      field_simp
      ring
    rw [h4]
    exact_mod_cast Complex.exp_int_mul_two_pi_mul_I d
  rw [hpow]
  simp

theorem sum_cos_eq_ite (N : ℕ) (hN : 0 < N) (d : ℤ) (hd : d.natAbs < N) :
    ∑ k in Finset.range N, Real.cos (2 * Real.pi * (k : ℝ) * (d : ℝ) / (N : ℝ))
      = if d = 0 then (N : ℝ) else 0 := by
  by_cases h0 : d = 0
  · subst h0
    simp
  · rw [if_neg h0]
    have hnd : ¬ (N : ℤ) ∣ d := by
      intro hdvd
      have h1 : N ∣ d.natAbs := by
        have := Int.natAbs_dvd_natAbs.mpr hdvd
        simpa using this
      have h2 : N ≤ d.natAbs :=
        Nat.le_of_dvd (Int.natAbs_pos.mpr h0) h1
      exact absurd hd (not_lt.mpr h2)
    have hre := congrArg Complex.re (sum_exp_eq_zero N hN d hnd)
    rw [Complex.re_sum,
      Finset.sum_congr rfl
        (fun (k : ℕ) _ => Complex.exp_ofReal_mul_I_re
          (2 * Real.pi * (k : ℝ) * (d : ℝ) / (N : ℝ)))] at hre
    simpa using hre

theorem sum_sin_eq_zero (N : ℕ) (hN : 0 < N) (d : ℤ) (hd : d.natAbs < N) :
    ∑ k in Finset.range N, Real.sin (2 * Real.pi * (k : ℝ) * (d : ℝ) / (N : ℝ))
      = 0 := by
  by_cases h0 : d = 0
  · subst h0
    simp
  · have hnd : ¬ (N : ℤ) ∣ d := by
      intro hdvd
      have h1 : N ∣ d.natAbs := by
        have := Int.natAbs_dvd_natAbs.mpr hdvd
        simpa using this
      have h2 : N ≤ d.natAbs :=
        Nat.le_of_dvd (Int.natAbs_pos.mpr h0) h1
      exact absurd hd (not_lt.mpr h2)
    have him := congrArg Complex.im (sum_exp_eq_zero N hN d hnd)
    rw [Complex.im_sum,
      Finset.sum_congr rfl
        (fun (k : ℕ) _ => Complex.exp_ofReal_mul_I_im
          (2 * Real.pi * (k : ℝ) * (d : ℝ) / (N : ℝ)))] at him
    simpa using him

/-! ### Round trip -/

theorem idftBin_dft (x : List (ℝ × ℝ)) (n : ℕ) (hn : n < x.length) :
    idftBin (dft x) n = ((x.getD n (0, 0)).1, 0) := by
  have hN : 0 < x.length := Nat.lt_of_le_of_lt (Nat.zero_le n) hn
  have hNR : (x.length : ℝ) ≠ 0 := Nat.cast_ne_zero.mpr hN.ne'
  rw [idftBin_eq_sum]
  simp only [dft_length]
  have step1 : ∀ k ∈ Finset.range x.length,
      (((dft x).getD k (0, 0)).1 *
          Real.cos (2 * Real.pi * (k : ℝ) * (n : ℝ) / (x.length : ℝ)) -
        ((dft x).getD k (0, 0)).2 *
          Real.sin (2 * Real.pi * (k : ℝ) * (n : ℝ) / (x.length : ℝ)))
      = ∑ m in Finset.range x.length, (x.getD m (0, 0)).1 *
          Real.cos (2 * Real.pi * (k : ℝ) * ((((m : ℤ) - (n : ℤ)) : ℤ) : ℝ) /
            (x.length : ℝ)) := by
    intro k hk
    rw [dft_getD x k (Finset.mem_range.mp hk), dftBin_eq_sum]
    simp only [neg_mul, sub_neg_eq_add]
    rw [Finset.sum_mul, Finset.sum_mul, ← Finset.sum_add_distrib]
    refine Finset.sum_congr rfl fun m hm => ?_
    have hang : 2 * Real.pi * (k : ℝ) * ((((m : ℤ) - (n : ℤ)) : ℤ) : ℝ) /
          (x.length : ℝ)
        = 2 * Real.pi * (k : ℝ) * (m : ℝ) / (x.length : ℝ)
          - 2 * Real.pi * (k : ℝ) * (n : ℝ) / (x.length : ℝ) := by
      push_cast
      ring
    rw [hang, Real.cos_sub]
    ring
  rw [Finset.sum_congr rfl step1, Finset.sum_comm]
  have step2 : ∀ m ∈ Finset.range x.length,
      ∑ k in Finset.range x.length, (x.getD m (0, 0)).1 *
          Real.cos (2 * Real.pi * (k : ℝ) * ((((m : ℤ) - (n : ℤ)) : ℤ) : ℝ) /
            (x.length : ℝ))
      = (x.getD m (0, 0)).1 *
          (if ((m : ℤ) - (n : ℤ)) = 0 then (x.length : ℝ) else 0) := by
    intro m hm
    have hm2 := Finset.mem_range.mp hm
    rw [← Finset.mul_sum,
      sum_cos_eq_ite x.length hN ((m : ℤ) - (n : ℤ)) (by omega)]
  rw [Finset.sum_congr rfl step2,
    Finset.sum_eq_single n
      (fun m _ hmn => by rw [if_neg (by omega), mul_zero])
      (fun hn2 => absurd (Finset.mem_range.mpr hn) hn2)]
  rw [if_pos (by omega), mul_div_assoc, div_self hNR, mul_one]

theorem idft_dft_of_real (x : List (ℝ × ℝ)) (hx : ∀ p ∈ x, p.2 = 0) :
    idft (dft x) = x := by
  have hlen : (idft (dft x)).length = x.length := by
    rw [idft_length, dft_length]
  apply List.ext_getElem hlen
  intro n h1 h2
  have e1 : (idft (dft x))[n] = idftBin (dft x) n := by
    rw [← List.getD_eq_getElem (idft (dft x)) (0, 0) h1]
    exact idft_getD (dft x) n (by rw [dft_length]; exact h2)
  have e2 : x.getD n (0, 0) = x[n] := List.getD_eq_getElem x (0, 0) h2
  rw [e1, idftBin_dft x n h2, e2]
  exact Prod.ext rfl (hx x[n] (List.getElem_mem h2)).symm

/-! ### Exponential forms -/

theorem dft_exp_getD (x : List (ℝ × ℝ)) (k : ℕ) (hk : k < x.length) :
    (dft_exp x).getD k (0, 0) =
      (∑ n in Finset.range x.length,
        ((x.getD n (0, 0)).1 *
            Real.cos (2 * Real.pi * (k : ℝ) * (n : ℝ) / (x.length : ℝ)) +
          (x.getD n (0, 0)).2 *
            Real.sin (2 * Real.pi * (k : ℝ) * (n : ℝ) / (x.length : ℝ))),
       ∑ n in Finset.range x.length,
        ((x.getD n (0, 0)).2 *
            Real.cos (2 * Real.pi * (k : ℝ) * (n : ℝ) / (x.length : ℝ)) -
          (x.getD n (0, 0)).1 *
            Real.sin (2 * Real.pi * (k : ℝ) * (n : ℝ) / (x.length : ℝ)))) := by
  rw [dft_exp, List.getD_eq_getElem _ _ (by simpa using hk)]
  simp only [List.getElem_map, List.getElem_range]
  rw [foldl_range_pair_addadd]
  simp

theorem idft_exp_getD (X : List (ℝ × ℝ)) (n : ℕ) (hn : n < X.length) :
    (idft_exp X).getD n (0, 0) =
      ((∑ k in Finset.range X.length,
          ((X.getD k (0, 0)).1 *
              Real.cos (2 * Real.pi * (k : ℝ) * (n : ℝ) / (X.length : ℝ)) -
            (X.getD k (0, 0)).2 *
              Real.sin (2 * Real.pi * (k : ℝ) * (n : ℝ) / (X.length : ℝ))))
        / (X.length : ℝ),
       (∑ k in Finset.range X.length,
          ((X.getD k (0, 0)).1 *
              Real.sin (2 * Real.pi * (k : ℝ) * (n : ℝ) / (X.length : ℝ)) +
            (X.getD k (0, 0)).2 *
              Real.cos (2 * Real.pi * (k : ℝ) * (n : ℝ) / (X.length : ℝ))))
        / (X.length : ℝ)) := by
  rw [idft_exp, List.getD_eq_getElem _ _ (by simpa using hn)]
  simp only [List.getElem_map, List.getElem_range]
  rw [foldl_range_pair_addadd]
  simp

theorem getD_snd_eq_zero (x : List (ℝ × ℝ)) (hx : ∀ p ∈ x, p.2 = 0) (n : ℕ) :
    (x.getD n (0, 0)).2 = 0 := by
  by_cases h : n < x.length
  · rw [List.getD_eq_getElem x (0, 0) h]
    exact hx _ (List.getElem_mem h)
  · rw [List.getD_eq_default x (0, 0) (Nat.le_of_not_lt h)]

theorem dft_exp_length (x : List (ℝ × ℝ)) : (dft_exp x).length = x.length := by
  simp [dft_exp]

theorem dft_exp_eq_dft_of_real (x : List (ℝ × ℝ)) (hx : ∀ p ∈ x, p.2 = 0) :
    dft_exp x = dft x := by
  apply List.ext_getElem (by rw [dft_exp_length, dft_length])
  intro k h1 h2
  have hk : k < x.length := by simpa [dft_exp_length] using h1
  rw [← List.getD_eq_getElem (dft_exp x) (0, 0) h1,
    ← List.getD_eq_getElem (dft x) (0, 0) h2,
    dft_exp_getD x k hk, dft_getD x k hk, dftBin_eq_sum]
  rw [Prod.mk.injEq]
  constructor
  · refine Finset.sum_congr rfl fun m hm => ?_
    rw [getD_snd_eq_zero x hx m]
    ring
  · rw [← Finset.sum_neg_distrib]
    refine Finset.sum_congr rfl fun m hm => ?_
    rw [getD_snd_eq_zero x hx m]
    ring

/-! ### Claims -/

/-- C1 (counterexample): the round-trip law fails for a complex sample with a
nonzero imaginary part.  For x = [(0, 1)] the code returns [(0, 0)], so the
imaginary component of element 0 is off by 1, far above the 1e-10 tolerance:
the forward transform reads only the real parts and the inverse transform
always writes 0 to the imaginary component. -/
theorem C1_counterexample :
    ¬ (|((idft (dft [((0 : ℝ), (1 : ℝ))])).getD 0 (0, 0)).2 - 1| <
        1 / 10 ^ 10) := by
  norm_num [idft, dft, idftBin, dftBin, List.range_succ, List.range_zero, List.getD]

/-- C1 (amended): for every sequence whose samples all have imaginary part 0
(the layout the code documents: the time-domain signal is in the real part),
applying the forward transform and then the inverse transform returns the
original sequence exactly in the real-number model. -/
theorem C1_round_trip (x : List (ℝ × ℝ)) (hx : ∀ p ∈ x, p.2 = 0) :
    idft (dft x) = x :=
  idft_dft_of_real x hx

/-- C1 (witness): the round trip at the concrete real-valued input
[(5, 0), (7, 0)]. -/
theorem C1_round_trip_witness :
    idft (dft [((5 : ℝ), (0 : ℝ)), ((7 : ℝ), (0 : ℝ))]) =
      [((5 : ℝ), (0 : ℝ)), ((7 : ℝ), (0 : ℝ))] :=
  C1_round_trip _ (by
    intro p hp
    simp only [List.mem_cons, List.not_mem_nil, or_false] at hp
    rcases hp with h | h <;> rw [h])

/-- C2 (counterexample): the forward accumulation formula of the claim
includes contributions of the imaginary parts of the input, but for
x = [(0, 1)] and k = 0 the code yields (0, 0) while the claimed formula
yields (0, 1): the code multiplies only x[n][0], the real part. -/
theorem C2_counterexample :
    ¬ ((dft [((0 : ℝ), (1 : ℝ))]).getD 0 (0, 0) =
      (∑ n in Finset.range 1,
          (([((0 : ℝ), (1 : ℝ))].getD n (0, 0)).1 *
              Real.cos (2 * Real.pi * ((0 : ℕ) : ℝ) * (n : ℝ) / 1) +
            ([((0 : ℝ), (1 : ℝ))].getD n (0, 0)).2 *
              Real.sin (2 * Real.pi * ((0 : ℕ) : ℝ) * (n : ℝ) / 1)),
       ∑ n in Finset.range 1,
          (-(([((0 : ℝ), (1 : ℝ))].getD n (0, 0)).1 *
              Real.sin (2 * Real.pi * ((0 : ℕ) : ℝ) * (n : ℝ) / 1)) +
            ([((0 : ℝ), (1 : ℝ))].getD n (0, 0)).2 *
              Real.cos (2 * Real.pi * ((0 : ℕ) : ℝ) * (n : ℝ) / 1)))) := by
  norm_num [dft, dftBin, List.range_succ, List.range_zero, List.getD, Prod.ext_iff]

/-- C2 (amended): for every input x of length N and k < N, bin k of the
forward transform is (sum of x[n].real*cos(2*pi*k*n/N),
sum of -(x[n].real*sin(2*pi*k*n/N))); the imaginary parts of the input do
not contribute. -/
theorem C2_forward_formula (x : List (ℝ × ℝ)) (k : ℕ) (hk : k < x.length) :
    (dft x).getD k (0, 0) =
      (∑ n in Finset.range x.length, (x.getD n (0, 0)).1 *
          Real.cos (2 * Real.pi * (k : ℝ) * (n : ℝ) / (x.length : ℝ)),
       ∑ n in Finset.range x.length, -((x.getD n (0, 0)).1 *
          Real.sin (2 * Real.pi * (k : ℝ) * (n : ℝ) / (x.length : ℝ)))) := by
  rw [dft_getD x k hk, dftBin_eq_sum, Finset.sum_neg_distrib]

/-- C2 (witness): the amended forward formula at the input [(1, 0)], k = 0. -/
theorem C2_forward_formula_witness :
    (dft [((1 : ℝ), (0 : ℝ))]).getD 0 (0, 0) =
      (∑ n in Finset.range [((1 : ℝ), (0 : ℝ))].length,
          ([((1 : ℝ), (0 : ℝ))].getD n (0, 0)).1 *
            Real.cos (2 * Real.pi * ((0 : ℕ) : ℝ) * (n : ℝ) /
              ([((1 : ℝ), (0 : ℝ))].length : ℝ)),
       ∑ n in Finset.range [((1 : ℝ), (0 : ℝ))].length,
          -(([((1 : ℝ), (0 : ℝ))].getD n (0, 0)).1 *
            Real.sin (2 * Real.pi * ((0 : ℕ) : ℝ) * (n : ℝ) /
              ([((1 : ℝ), (0 : ℝ))].length : ℝ)))) :=
  C2_forward_formula [((1 : ℝ), (0 : ℝ))] 0 (by norm_num)

/-- C3 (counterexample): the claim says the imaginary accumulator
sum of X[k].real*sin(angle) + X[k].imag*cos(angle) is divided by N and
returned, but that line is commented out in idft: for X = [(0, 1)] and
n = 0 the code yields (0, 0) while the claimed formula yields (0, 1). -/
theorem C3_counterexample :
    ¬ ((idft [((0 : ℝ), (1 : ℝ))]).getD 0 (0, 0) =
      ((∑ k in Finset.range 1,
          (([((0 : ℝ), (1 : ℝ))].getD k (0, 0)).1 *
              Real.cos (2 * Real.pi * (k : ℝ) * ((0 : ℕ) : ℝ) / 1) -
            ([((0 : ℝ), (1 : ℝ))].getD k (0, 0)).2 *
              Real.sin (2 * Real.pi * (k : ℝ) * ((0 : ℕ) : ℝ) / 1))) / 1,
       (∑ k in Finset.range 1,
          (([((0 : ℝ), (1 : ℝ))].getD k (0, 0)).1 *
              Real.sin (2 * Real.pi * (k : ℝ) * ((0 : ℕ) : ℝ) / 1) +
            ([((0 : ℝ), (1 : ℝ))].getD k (0, 0)).2 *
              Real.cos (2 * Real.pi * (k : ℝ) * ((0 : ℕ) : ℝ) / 1))) / 1)) := by
  norm_num [idft, idftBin, List.range_succ, List.range_zero, List.getD, Prod.ext_iff]

/-- C3 (amended): for every input X of length N >= 1 and n < N, output n of
the inverse transform is (A/N, 0) where A is the sum over k of
X[k].real*cos(2*pi*k*n/N) - X[k].imag*sin(2*pi*k*n/N); the imaginary
accumulator line is commented out in the code, so the imaginary component
is 0 (0.0 divided by N), not B/N. -/
theorem C3_inverse_formula (X : List (ℝ × ℝ)) (n : ℕ) (hn : n < X.length) :
    (idft X).getD n (0, 0) =
      ((∑ k in Finset.range X.length,
          ((X.getD k (0, 0)).1 *
              Real.cos (2 * Real.pi * (k : ℝ) * (n : ℝ) / (X.length : ℝ)) -
            (X.getD k (0, 0)).2 *
              Real.sin (2 * Real.pi * (k : ℝ) * (n : ℝ) / (X.length : ℝ))))
        / (X.length : ℝ), 0) := by
  rw [idft_getD X n hn, idftBin_eq_sum]

/-- C3 (witness): the amended inverse formula at the input [(1, 0)], n = 0. -/
theorem C3_inverse_formula_witness :
    (idft [((1 : ℝ), (0 : ℝ))]).getD 0 (0, 0) =
      ((∑ k in Finset.range [((1 : ℝ), (0 : ℝ))].length,
          (([((1 : ℝ), (0 : ℝ))].getD k (0, 0)).1 *
              Real.cos (2 * Real.pi * (k : ℝ) * ((0 : ℕ) : ℝ) /
                ([((1 : ℝ), (0 : ℝ))].length : ℝ)) -
            ([((1 : ℝ), (0 : ℝ))].getD k (0, 0)).2 *
              Real.sin (2 * Real.pi * (k : ℝ) * ((0 : ℕ) : ℝ) /
                ([((1 : ℝ), (0 : ℝ))].length : ℝ))))
        / ([((1 : ℝ), (0 : ℝ))].length : ℝ), 0) :=
  C3_inverse_formula [((1 : ℝ), (0 : ℝ))] 0 (by norm_num)

/-- C4: both transforms preserve the length of their input, for every input
including the empty sequence and singletons. -/
theorem C4_length_preservation :
    (∀ x : List (ℝ × ℝ), (dft x).length = x.length) ∧
    (∀ X : List (ℝ × ℝ), (idft X).length = X.length) :=
  ⟨dft_length, idft_length⟩

/-- C5: on the empty sequence both transforms return the empty sequence; the
division by N in the inverse sits inside the loop body over range N, which
does not execute, so no division by zero is reached. -/
theorem C5_empty_input :
    dft ([] : List (ℝ × ℝ)) = [] ∧ idft ([] : List (ℝ × ℝ)) = [] := by
  constructor <;> simp [dft, idft]

/-- C6: for a constant real input of length N >= 1 with every sample (c, 0),
bin 0 of the forward transform is exactly (N*c, 0) and every other bin
k < N is exactly (0, 0) in the real-number model. -/
theorem C6_dc_component (N k : ℕ) (c : ℝ) (hN : 0 < N) (hk : k < N) :
    (dft (List.replicate N (c, 0))).getD k (0, 0) =
      if k = 0 then ((N : ℝ) * c, 0) else (0, 0) := by
  have hlen : (List.replicate N ((c : ℝ), (0 : ℝ))).length = N :=
    List.length_replicate N (c, 0)
  have hget : ∀ n ∈ Finset.range N,
      ((List.replicate N ((c : ℝ), (0 : ℝ))).getD n (0, 0)).1 = c := by
    intro n hn
    rw [List.getD_eq_getElem _ _ (by rw [hlen]; exact Finset.mem_range.mp hn)]
    rw [List.getElem_replicate]
  rw [dft_getD _ k (by rw [hlen]; exact hk), dftBin_eq_sum]
  simp only [hlen]
  by_cases h0 : k = 0
  · subst h0
    rw [if_pos rfl]
    have hcos : ∀ n ∈ Finset.range N,
        ((List.replicate N ((c : ℝ), (0 : ℝ))).getD n (0, 0)).1 *
            Real.cos (2 * Real.pi * ((0 : ℕ) : ℝ) * (n : ℝ) / (N : ℝ)) = c := by
      intro n hn
      rw [hget n hn]
      norm_num
    have hsin : ∀ n ∈ Finset.range N,
        ((List.replicate N ((c : ℝ), (0 : ℝ))).getD n (0, 0)).1 *
            Real.sin (2 * Real.pi * ((0 : ℕ) : ℝ) * (n : ℝ) / (N : ℝ)) = 0 := by
      intro n hn
      rw [hget n hn]
      norm_num
    rw [Finset.sum_congr rfl hcos, Finset.sum_congr rfl hsin]
    simp [mul_comm]
  · rw [if_neg h0]
    have hcos : ∀ n ∈ Finset.range N,
        ((List.replicate N ((c : ℝ), (0 : ℝ))).getD n (0, 0)).1 *
            Real.cos (2 * Real.pi * (k : ℝ) * (n : ℝ) / (N : ℝ)) =
          c * Real.cos (2 * Real.pi * (n : ℝ) * (((k : ℤ) : ℝ)) / (N : ℝ)) := by
      intro n hn
      rw [hget n hn]
      congr 2
      push_cast
      ring
    have hsin : ∀ n ∈ Finset.range N,
        ((List.replicate N ((c : ℝ), (0 : ℝ))).getD n (0, 0)).1 *
            Real.sin (2 * Real.pi * (k : ℝ) * (n : ℝ) / (N : ℝ)) =
          c * Real.sin (2 * Real.pi * (n : ℝ) * (((k : ℤ) : ℝ)) / (N : ℝ)) := by
      intro n hn
      rw [hget n hn]
      congr 2
      push_cast
      ring
    rw [Finset.sum_congr rfl hcos, Finset.sum_congr rfl hsin,
      ← Finset.mul_sum, ← Finset.mul_sum,
      sum_cos_eq_ite N hN (k : ℤ) (by omega),
      sum_sin_eq_zero N hN (k : ℤ) (by omega),
      if_neg (by exact_mod_cast h0)]
    norm_num

/-- C6 (witness): the DC statement at N = 2, c = 3, bin k = 1. -/
theorem C6_dc_component_witness :
    (dft (List.replicate 2 ((3 : ℝ), 0))).getD 1 (0, 0) =
      if (1 : ℕ) = 0 then (((2 : ℕ) : ℝ) * 3, 0) else (0, 0) :=
  C6_dc_component 2 1 3 (by norm_num) (by norm_num)

/-- C8 (counterexample): the trigonometric form dft and the exponential form
dft_exp do not match within 1e-10 on every input: at x = [(0, 1)] the
exponential form uses the imaginary part of the sample while dft ignores it,
so the imaginary components of bin 0 differ by 1. -/
theorem C8_counterexample :
    ¬ (|((dft_exp [((0 : ℝ), (1 : ℝ))]).getD 0 (0, 0)).2 -
        ((dft [((0 : ℝ), (1 : ℝ))]).getD 0 (0, 0)).2| < 1 / 10 ^ 10) := by
  norm_num [dft, dft_exp, dftBin, List.range_succ, List.range_zero, List.getD]

/-- C8 (amended): the two forward forms agree (exactly, in the real-number
model) on every input whose samples all have imaginary part 0, and the two
inverse forms agree in the real component on every input and index; the
forms differ in general because dft drops the imaginary parts of its input
and idft pins the imaginary component of its output to 0. -/
theorem C8_equivalence :
    (∀ x : List (ℝ × ℝ), (∀ p ∈ x, p.2 = 0) → dft_exp x = dft x) ∧
    (∀ (X : List (ℝ × ℝ)) (n : ℕ), n < X.length →
      ((idft_exp X).getD n (0, 0)).1 = ((idft X).getD n (0, 0)).1) := by
  constructor
  · exact dft_exp_eq_dft_of_real
  · intro X n hn
    rw [idft_exp_getD X n hn, idft_getD X n hn, idftBin_eq_sum]

/-- C8 (witness): forward agreement at [(1, 0)] and inverse real-component
agreement at [(1, 2)], n = 0. -/
theorem C8_equivalence_witness :
    dft_exp [((1 : ℝ), (0 : ℝ))] = dft [((1 : ℝ), (0 : ℝ))] ∧
    ((idft_exp [((1 : ℝ), (2 : ℝ))]).getD 0 (0, 0)).1 =
      ((idft [((1 : ℝ), (2 : ℝ))]).getD 0 (0, 0)).1 :=
  ⟨C8_equivalence.1 _ (by
      intro p hp
      simp only [List.mem_cons, List.not_mem_nil, or_false] at hp
      rw [hp]),
   C8_equivalence.2 _ 0 (by norm_num)⟩

/-- C9: the forward transform depends only on the real parts of the input
samples: two inputs of equal length with identical real parts produce
identical outputs. -/
theorem C9_real_part_only (x y : List (ℝ × ℝ)) (hlen : x.length = y.length)
    (hfst : ∀ n, (x.getD n (0, 0)).1 = (y.getD n (0, 0)).1) :
    dft x = dft y := by
  have hbin : ∀ k, dftBin x k = dftBin y k := by
    intro k
    rw [dftBin_eq_sum, dftBin_eq_sum, hlen]
    rw [Prod.mk.injEq]
    constructor
    · refine Finset.sum_congr rfl fun m hm => ?_
      rw [hfst m]
    · rw [neg_inj]
      refine Finset.sum_congr rfl fun m hm => ?_
      rw [hfst m]
  rw [dft, dft, hlen]
  exact congrArg (fun f => List.map f (List.range y.length)) (funext hbin)

/-- C9 (witness): inputs [(1, 2)] and [(1, 3)] share real parts and get the
same forward transform. -/
theorem C9_real_part_only_witness :
    dft [((1 : ℝ), (2 : ℝ))] = dft [((1 : ℝ), (3 : ℝ))] :=
  C9_real_part_only _ _ rfl (fun n => by cases n <;> simp [List.getD])

/-- C10: every element of the inverse transform output has imaginary
component exactly 0: the accumulator for it is the constant 0.0 (its update
is commented out in the source) and 0.0 divided by N is 0. -/
theorem C10_inverse_imag_zero (X : List (ℝ × ℝ)) (n : ℕ)
    (h : n < (idft X).length) : ((idft X).get ⟨n, h⟩).2 = 0 := by
  have hn : n < X.length := by
    rw [← idft_length X]
    exact h
  rw [List.get_eq_getElem, ← List.getD_eq_getElem (idft X) (0, 0) h,
    idft_getD X n hn, idftBin_eq_sum]

/-- C10 (witness): the imaginary component of element 0 of the inverse
transform of [(1, 2)] is 0. -/
theorem C10_inverse_imag_zero_witness :
    ((idft [((1 : ℝ), (2 : ℝ))]).get ⟨0, by simp [idft]⟩).2 = 0 :=
  C10_inverse_imag_zero [((1 : ℝ), (2 : ℝ))] 0 (by simp [idft])

end DFT
